import Mathlib

/-!
Shallow embedding of the migration engine in `pkg/migrate/migrate.go`
(repository squlpt-go/migrate), together with theorems settling the
frozen claims about the natural-language specification.

Modelling conventions:
* The filesystem, the database and the clock are collected in an `Env`
  record of pure functions: `readDir` models `os.ReadDir`, `readFile`
  models `os.Open`/`os.ReadFile` of a migration file (`none` = I/O
  failure), `exec` models `db.Exec` (`false` = the database rejects the
  statement batch), `lockAt` models the state of the lock file at a
  given path, `writeOk` models whether `os.WriteFile` of the lock file
  succeeds, and `now` models `time.Now()` (a single instant per run;
  no claim depends on distinct timestamps within a run).
* `hash` abstracts the SHA-256 hex digest of `calculateSum`: the digest
  of a file is `env.hash` applied to its content.  No claim depends on
  the algorithm, only on the digest being computed from the content.
* Go errors are modelled by the inductive `Err`, which records the kind
  of failure and the path embedded in the corresponding `fmt.Errorf`
  message of the source.
* JSON marshalling of the lock file is modelled at the level of a JSON
  value tree (`Json`): `encodeLock` mirrors the struct tags of `Lock`
  and `Result`, `decodeLock` mirrors `encoding/json` decoding into
  those structs (absent or null fields give zero values, type
  mismatches fail).  The textual layer (`json.MarshalIndent` and the
  stream parser) belongs to the Go standard library, outside this
  repository, and is abstracted away.  `time.Time` marshals as an
  RFC-3339 string; the instant itself is modelled as a `Nat` and its
  JSON form as a number, which preserves the round-trip structure.
* Instrumentation: the outputs of the engine additionally record the
  trace of checksums computed (`sums`), of file contents submitted to
  the database (`execs`) and of directories read (`dirsRead`), so that
  claims of the form "file X is never attempted" are statable.
-/

namespace MigratePkg

/-- One applied migration, mirroring `type Result struct` of the source:
`Filepath`, `Timestamp` (a `time.Time`, modelled as a `Nat` instant)
and `Sum`. -/
structure Result where
  filepath : String
  timestamp : Nat
  sum : String
deriving DecidableEq, Repr

/-- The ledger, mirroring `type Lock struct { Migrations []Result }`. -/
structure Lock where
  migrations : List Result
deriving DecidableEq, Repr

/-- Mirrors `type Config struct`.  `fileExtensions = none` models a nil
`FileExtensions` slice, `some l` a present (possibly empty) slice. -/
structure Config where
  dirs : List String
  fileExtensions : Option (List String)
  lockFile : String

/-- `var defaultFileExtensions = []string\x7b".sql"\x7d` of the source. -/
def defaultFileExtensions : List String := [".sql"]

/-- A directory entry as returned by `os.ReadDir`: a name and whether
the entry is a subdirectory. -/
structure DirEntry where
  name : String
  isDir : Bool
deriving DecidableEq, Repr

/-- A JSON value tree, the target of lock-file marshalling. -/
inductive Json where
  | str : String → Json
  | num : Nat → Json
  | arr : List Json → Json
  | obj : List (String × Json) → Json
  | null : Json

/-- The state of the lock file at a path: missing (`os.Stat` yields
`ErrNotExist`), present but unopenable, or present with a JSON
content. -/
inductive LockFileState where
  | absent
  | unreadable
  | content (j : Json)

/-- The kinds of error produced by the engine, each recording the path
that the corresponding `fmt.Errorf` of the source embeds in its
message. -/
inductive Err where
  | lockRead
  | lockParse
  | readDir (dir : String)
  | checksum (fp : String)
  | readFile (fp : String)
  | execFile (fp : String)
deriving DecidableEq, Repr

/-- The external world of one run: filesystem, database, digest
function, lock-file state and clock. -/
structure Env where
  readDir : String → Option (List DirEntry)
  readFile : String → Option String
  hash : String → String
  exec : String → Bool
  lockAt : String → LockFileState
  writeOk : Bool
  now : Nat

/-! ### JSON marshalling of the lock file -/

/-- Encoding of a `Result`, following the struct tags `filepath`,
`timestamp`, `sum` in declaration order. -/
def encodeResult (r : Result) : Json :=
  .obj [("filepath", .str r.filepath), ("timestamp", .num r.timestamp), ("sum", .str r.sum)]

/-- Encoding of a `Lock`, following the struct tag `migrations`. -/
def encodeLock (lock : Lock) : Json :=
  .obj [("migrations", .arr (lock.migrations.map encodeResult))]

/-- Key lookup in a JSON object. -/
def jsonLookup (key : String) : List (String × Json) → Option Json
  | [] => none
  | (k, v) :: rest => if k = key then some v else jsonLookup key rest

/-- Decoding of a string-typed struct field: an absent or null field
leaves the zero value, a non-string value is a decode error. -/
def decodeStrField (kvs : List (String × Json)) (key : String) : Option String :=
  match jsonLookup key kvs with
  | none => some ""
  | some (.str s) => some s
  | some .null => some ""
  | some _ => none

/-- Decoding of the numeric (instant) struct field, analogous to
`decodeStrField`. -/
def decodeNatField (kvs : List (String × Json)) (key : String) : Option Nat :=
  match jsonLookup key kvs with
  | none => some 0
  | some (.num n) => some n
  | some .null => some 0
  | some _ => none

/-- Decoding of one `Result` object. -/
def decodeResult : Json → Option Result
  | .obj kvs =>
    match decodeStrField kvs "filepath", decodeNatField kvs "timestamp",
        decodeStrField kvs "sum" with
    | some fp, some ts, some s => some ⟨fp, ts, s⟩
    | _, _, _ => none
  | .null => some ⟨"", 0, ""⟩
  | _ => none

/-- Decoding of a list of `Result` objects. -/
def decodeResultList : List Json → Option (List Result)
  | [] => some []
  | j :: rest =>
    match decodeResult j, decodeResultList rest with
    | some r, some rs => some (r :: rs)
    | _, _ => none

/-- Decoding of a `Lock` object. -/
def decodeLock : Json → Option Lock
  | .obj kvs =>
    match jsonLookup "migrations" kvs with
    | none => some ⟨[]⟩
    | some .null => some ⟨[]⟩
    | some (.arr js) => (decodeResultList js).map Lock.mk
    | some _ => none
  | .null => some ⟨[]⟩
  | _ => none

/-! ### Lock store -/

/-- `loadLockFile` of the source: a missing file yields the empty
ledger and no error; an unopenable file yields the reading error; a
file whose JSON does not decode yields the parsing error.  The pair
mirrors the Go return `(Lock, error)`: the zero `Lock` accompanies
every error, as in the source. -/
def loadLockFile (env : Env) (fp : String) : Lock × Option Err :=
  match env.lockAt fp with
  | .absent => (⟨[]⟩, none)
  | .unreadable => (⟨[]⟩, some .lockRead)
  | .content j =>
    match decodeLock j with
    | some lock => (lock, none)
    | none => (⟨[]⟩, some .lockParse)

/-- Updating the lock file at path `fp` with the encoding of `lock`;
everything else of the environment is unchanged. -/
def setLock (env : Env) (fp : String) (lock : Lock) : Env :=
  { env with lockAt := fun q => if q = fp then .content (encodeLock lock) else env.lockAt q }

/-- `writeLockFile` of the source: `json.MarshalIndent` of a `Lock`
never fails, so the only failure mode is the `os.WriteFile` call,
modelled by `env.writeOk`.  On success the environment with the
updated lock file is returned. -/
def writeLockFile (env : Env) (fp : String) (lock : Lock) : Option Env :=
  if env.writeOk then some (setLock env fp lock) else none

/-! ### Checksum calculator -/

/-- `calculateSum` of the source: open and stream the file through
SHA-256 (abstracted by `env.hash`); fails exactly when the file cannot
be read. -/
def calculateSum (env : Env) (fp : String) : Option String :=
  (env.readFile fp).map env.hash

/-! ### Discovery: ordering comparator and directory listing -/

/-- The longest leading run of decimal digits of a string, as matched
by the anchored regular expression of `getDirFiles`. -/
def leadingDigitRun (s : String) : List Char :=
  s.data.takeWhile Char.isDigit

/-- Decimal value of a digit run. -/
def digitsToNat (ds : List Char) : Nat :=
  ds.foldl (fun acc c => 10 * acc + (c.toNat - 48)) 0

/-- The largest value representable by a 64-bit Go `int`, the range
bound of `strconv.Atoi` on a 64-bit platform. -/
def maxGoInt : Nat := 9223372036854775807

/-- `extractNumber` of the source: the leading digit run, if nonempty,
parsed by `strconv.Atoi`; the parse fails (and the name counts as
having no ordering number) when the value exceeds the `int` range. -/
def extractNumber (s : String) : Option Nat :=
  let ds := leadingDigitRun s
  if ds = [] then none
  else if digitsToNat ds ≤ maxGoInt then some (digitsToNat ds) else none

/-- Byte-wise (equivalently code-point-wise, since UTF-8 preserves
code-point order) lexicographic strict comparison of character lists,
modelling the Go `<` operator on strings. -/
def charListLt : List Char → List Char → Bool
  | [], [] => false
  | [], _ :: _ => true
  | _ :: _, [] => false
  | a :: as, b :: bs =>
    if a.toNat < b.toNat then true
    else if b.toNat < a.toNat then false
    else charListLt as bs

/-- Go string comparison `name1 < name2`. -/
def strLt (a b : String) : Bool :=
  charListLt a.data b.data

/-- The comparison closure passed to `sort.Slice` in `getDirFiles`:
numeric comparison when both names have an ordering number, otherwise
lexicographic comparison of the full names. -/
def dirLess (name1 name2 : String) : Bool :=
  match extractNumber name1, extractNumber name2 with
  | some n1, some n2 => n1 < n2
  | _, _ => strLt name1 name2

/-- Modelled from the spec (section 4.2 and claim C3): the comparator
as the specification words it, with the ordering number being the
leading digit run parsed as a mathematical integer (no range bound).
Used only to compare the specified ordering with the one the source
implements. -/
def specOrderNum (s : String) : Option Nat :=
  let ds := leadingDigitRun s
  if ds = [] then none else some (digitsToNat ds)

/-- Modelled from the spec: the mixed comparator of claim C3 built on
`specOrderNum`. -/
def specLess (name1 name2 : String) : Bool :=
  match specOrderNum name1, specOrderNum name2 with
  | some n1, some n2 => n1 < n2
  | _, _ => strLt name1 name2

/-- The non-strict version of `dirLess` used for sorting: `a` may come
before `b` iff `b` is not strictly less than `a`. -/
def entLE (a b : DirEntry) : Bool :=
  !(dirLess b.name a.name)

/-- Insertion into a sorted list, the building block of the sort. -/
def orderedInsert (a : DirEntry) : List DirEntry → List DirEntry
  | [] => [a]
  | b :: l => if entLE a b then a :: b :: l else b :: orderedInsert a l

/-- The `sort.Slice` call of `getDirFiles`.  `sort.Slice` is an
unspecified comparison sort; it is modelled as insertion sort, which
agrees with it up to the order of entries the comparator does not
distinguish, and produces a comparator-sorted permutation whenever the
comparator is a strict weak order on the listed names. -/
def sortEntries : List DirEntry → List DirEntry
  | [] => []
  | a :: l => orderedInsert a (sortEntries l)

/-- `getDirFiles` of the source: read the directory and sort the
entries with the mixed comparator. -/
def getDirFiles (env : Env) (dir : String) : Option (List DirEntry) :=
  (env.readDir dir).map sortEntries

/-! ### Migration engine -/

/-- `filepath.Ext` of an entry name (entry names contain no path
separator): the suffix beginning at the final dot, empty when the name
has no dot. -/
def fileExt (name : String) : String :=
  let r := name.data.reverse
  let suffix := r.takeWhile (fun c => c ≠ '.')
  if suffix.length = r.length then "" else ⟨'.' :: suffix.reverse⟩

/-- `path.Join(dir, name)` for a plain directory path and an entry
name (no cleaning is needed for such arguments). -/
def pathJoin (dir name : String) : String :=
  dir ++ "/" ++ name

/-- `lockHasFile` of the source: linear scan for an exact `Filepath`
match. -/
def lockHasFile (lock : Lock) (fp : String) : Bool :=
  lock.migrations.any fun r => fp == r.filepath

/-- The effective extension list of `migrateDir`: the configured list,
or `defaultFileExtensions` when the configured slice is nil. -/
def effFileExtensions (cfg : Config) : List String :=
  match cfg.fileExtensions with
  | none => defaultFileExtensions
  | some exts => exts

/-- Output of the per-directory candidate loop: the new results, the
error (if the loop stopped early), and the instrumentation traces of
checksums computed and contents submitted to the database. -/
structure DirOut where
  results : List Result
  err : Option Err
  sums : List String
  execs : List String
deriving DecidableEq, Repr

/-- The candidate loop of `migrateDir`: skip subdirectories, skip
names whose extension is not recognised, skip paths already in the
ledger; otherwise compute the checksum, read the content, submit it to
the database, and on success record a `Result` and continue; any
failure stops the loop with the results accumulated so far. -/
def migrateDirLoop (env : Env) (lock : Lock) (exts : List String) (dir : String) :
    List DirEntry → DirOut
  | [] => ⟨[], none, [], []⟩
  | e :: rest =>
    if e.isDir then migrateDirLoop env lock exts dir rest
    else if !(exts.contains (fileExt e.name)) then migrateDirLoop env lock exts dir rest
    else
      let fp := pathJoin dir e.name
      if lockHasFile lock fp then migrateDirLoop env lock exts dir rest
      else
        match calculateSum env fp with
        | none => ⟨[], some (.checksum fp), [], []⟩
        | some sum =>
          match env.readFile fp with
          | none => ⟨[], some (.readFile fp), [fp], []⟩
          | some qs =>
            if env.exec qs then
              let o := migrateDirLoop env lock exts dir rest
              ⟨⟨fp, env.now, sum⟩ :: o.results, o.err, fp :: o.sums, fp :: o.execs⟩
            else ⟨[], some (.execFile fp), [fp], [fp]⟩

/-- Output of `migrateDir`: as `DirOut`, but the result slice is `none`
exactly when `getDirFiles` failed (the `return nil, err` of the
source). -/
structure MDirOut where
  results : Option (List Result)
  err : Option Err
  sums : List String
  execs : List String
deriving DecidableEq, Repr

/-- `migrateDir` of the source. -/
def migrateDir (env : Env) (cfg : Config) (lock : Lock) (dir : String) : MDirOut :=
  match getDirFiles env dir with
  | none => ⟨none, some (.readDir dir), [], []⟩
  | some files =>
    let o := migrateDirLoop env lock (effFileExtensions cfg) dir files
    ⟨some o.results, o.err, o.sums, o.execs⟩

/-- Output of `doMigrate`: the accumulated results (the Go slice here
is created by `make` and never nil), the first error, the traces, and
the directories read. -/
structure RunOut where
  results : List Result
  err : Option Err
  sums : List String
  execs : List String
  dirsRead : List String
deriving DecidableEq, Repr

/-- The location loop of `doMigrate`: accumulate each directory result
slice when non-nil, and stop at the first error. -/
def doMigrateDirs (env : Env) (cfg : Config) (lock : Lock) : List String → RunOut
  | [] => ⟨[], none, [], [], []⟩
  | dir :: rest =>
    let m := migrateDir env cfg lock dir
    let acc := match m.results with
      | some r => r
      | none => []
    match m.err with
    | some e => ⟨acc, some e, m.sums, m.execs, [dir]⟩
    | none =>
      let o := doMigrateDirs env cfg lock rest
      ⟨acc ++ o.results, o.err, m.sums ++ o.sums, m.execs ++ o.execs, dir :: o.dirsRead⟩

/-- `doMigrate` of the source, iterating the configured directories. -/
def doMigrate (env : Env) (cfg : Config) (lock : Lock) : RunOut :=
  doMigrateDirs env cfg lock cfg.dirs

/-- Observable output of one `Migrate` call.  `results = none` models
the Go `nil` slice returned on a lock-load failure; `written` is the
ledger written to the lock file, if any; `panicked` records the
`panic` taken when writing the lock file fails. -/
structure MigOut where
  results : Option (List Result)
  err : Option Err
  written : Option Lock
  panicked : Bool
  sums : List String
  execs : List String
  dirsRead : List String
deriving DecidableEq, Repr

/-- `Migrate` of the source, returning its observable output together
with the post-run environment.  After a successful load, the result
slice of `doMigrate` is created by `make([]Result, 0)` and is never
nil, so the `results != nil` guard of the source always holds and the
lock file is always rewritten (appending the new results to the loaded
ledger); a failing write panics. -/
def Migrate (env : Env) (cfg : Config) : MigOut × Env :=
  match loadLockFile env cfg.lockFile with
  | (_, some e) => (⟨none, some e, none, false, [], [], []⟩, env)
  | (lock, none) =>
    let o := doMigrate env cfg lock
    let newLock : Lock := ⟨lock.migrations ++ o.results⟩
    match writeLockFile env cfg.lockFile newLock with
    | some env2 =>
      (⟨some o.results, o.err, some newLock, false, o.sums, o.execs, o.dirsRead⟩, env2)
    | none =>
      (⟨some o.results, o.err, none, true, o.sums, o.execs, o.dirsRead⟩, env)

end MigratePkg

namespace MigratePkg

/-! ### Round-trip of the lock-file encoding -/

theorem decodeResult_encodeResult (r : Result) : decodeResult (encodeResult r) = some r := by
  cases r with
  | mk fp ts s =>
    simp [decodeResult, encodeResult, decodeStrField, decodeNatField, jsonLookup]

theorem decodeResultList_map (rs : List Result) :
    decodeResultList (rs.map encodeResult) = some rs := by
  induction rs with
  | nil => rfl
  | cons r rest ih => simp [decodeResultList, decodeResult_encodeResult, ih]

theorem decodeLock_encodeLock (lock : Lock) : decodeLock (encodeLock lock) = some lock := by
  cases lock with
  | mk ms => simp [decodeLock, encodeLock, jsonLookup, decodeResultList_map]

/-! ### Claim C7 -/

/-- C7: loading a ledger from a path at which no file exists returns an
empty ledger (zero Results) and a nil error, for every such path. -/
theorem C7_missing_lock_file (env : Env) (fp : String) (h : env.lockAt fp = .absent) :
    loadLockFile env fp = (⟨[]⟩, none) := by
  simp [loadLockFile, h]

def envC7 : Env :=
  ⟨fun _ => none, fun _ => none, id, fun _ => true, fun _ => .absent, true, 0⟩

theorem C7_witness :
    envC7.lockAt "no-such.lock.json" = .absent ∧
      loadLockFile envC7 "no-such.lock.json" = (⟨[]⟩, none) :=
  ⟨rfl, C7_missing_lock_file envC7 "no-such.lock.json" rfl⟩

/-! ### Claim C8 -/

/-- C8: writing any ledger with writeLockFile and reading the file back
with loadLockFile yields an equal ledger: every Result with its
Filepath, Timestamp and Sum, in the same order, and no error. -/
theorem C8_roundtrip (env : Env) (fp : String) (lock : Lock) (env2 : Env)
    (h : writeLockFile env fp lock = some env2) :
    loadLockFile env2 fp = (lock, none) := by
  unfold writeLockFile at h
  by_cases hw : env.writeOk
  · rw [if_pos hw] at h
    obtain rfl : setLock env fp lock = env2 := Option.some.inj h
    simp [loadLockFile, setLock, decodeLock_encodeLock]
  · rw [if_neg hw] at h
    exact absurd h (by simp)

def envC8 : Env :=
  ⟨fun _ => none, fun _ => none, id, fun _ => true, fun _ => .absent, true, 0⟩

def lockC8 : Lock := ⟨[⟨"migrations/001-init.sql", 5, "digest-one"⟩,
  ⟨"migrations/002-seed.sql", 9, "digest-two"⟩]⟩

theorem C8_witness :
    writeLockFile envC8 ".migrate.lock.json" lockC8 =
        some (setLock envC8 ".migrate.lock.json" lockC8) ∧
      loadLockFile (setLock envC8 ".migrate.lock.json" lockC8) ".migrate.lock.json" =
        (lockC8, none) :=
  ⟨rfl, C8_roundtrip envC8 ".migrate.lock.json" lockC8 _ rfl⟩

/-! ### Claim C9 -/

/-- C9: if loading the lock file fails, Migrate returns a nil result
list and the error immediately: no checksum is computed, no migration
content is executed, no directory is read, the lock file is not
rewritten, and the environment is unchanged. -/
theorem C9_load_error (env : Env) (cfg : Config) (lock : Lock) (e : Err)
    (h : loadLockFile env cfg.lockFile = (lock, some e)) :
    (Migrate env cfg).1 = ⟨none, some e, none, false, [], [], []⟩ ∧
      (Migrate env cfg).2 = env := by
  refine ⟨?_, ?_⟩ <;> (unfold Migrate; rw [h])

def envC9 : Env :=
  ⟨fun _ => none, fun _ => none, id, fun _ => true,
    fun _ => .content (.str "not an object"), true, 0⟩

def cfgC9 : Config := ⟨["migrations"], none, "bad.lock.json"⟩

theorem C9_witness :
    loadLockFile envC9 cfgC9.lockFile = (⟨[]⟩, some .lockParse) ∧
      (Migrate envC9 cfgC9).1 = ⟨none, some .lockParse, none, false, [], [], []⟩ ∧
      (Migrate envC9 cfgC9).2 = envC9 :=
  ⟨rfl, C9_load_error envC9 cfgC9 ⟨[]⟩ .lockParse rfl⟩

/-! ### Claim C6 -/

def envC6 : Env :=
  ⟨fun _ => none, fun _ => none, id, fun _ => true, fun _ => .absent, true, 0⟩

def cfgC6 : Config := ⟨[], none, ".migrate.lock.json"⟩

/-- C6 counterexample: a run with no configured locations produces zero
new Results, yet Migrate still writes the (unchanged, here empty)
ledger to the lock file, contradicting the claim that with no new
migrations the lock file is not written at all. -/
theorem C6_counterexample :
    (Migrate envC6 cfgC6).1.results = some [] ∧
      (Migrate envC6 cfgC6).1.written = some ⟨[]⟩ :=
  ⟨rfl, rfl⟩

/-- C6 amended: Migrate rewrites the lock file at the end of every run
in which the lock file was successfully loaded (the result slice of
doMigrate is never nil, so the write guard of the source always
holds), appending the run results - including runs that produced zero
new Results.  Only a lock-load failure leaves the lock file untouched
(and a failing write panics). -/
theorem C6_amended (env : Env) (cfg : Config) (lock : Lock)
    (h : loadLockFile env cfg.lockFile = (lock, none)) (hw : env.writeOk = true) :
    (Migrate env cfg).1.written =
      some ⟨lock.migrations ++ (doMigrate env cfg lock).results⟩ := by
  unfold Migrate
  rw [h]
  simp [writeLockFile, hw]

def envC6w : Env :=
  ⟨fun _ => none, fun _ => none, id, fun _ => true, fun _ => .absent, true, 0⟩

def cfgC6w : Config := ⟨[], none, ".migrate.lock.json"⟩

theorem C6_witness :
    loadLockFile envC6w cfgC6w.lockFile = (⟨[]⟩, none) ∧ envC6w.writeOk = true ∧
      (Migrate envC6w cfgC6w).1.written =
        some ⟨(Lock.mk []).migrations ++ (doMigrate envC6w cfgC6w ⟨[]⟩).results⟩ :=
  ⟨rfl, rfl, C6_amended envC6w cfgC6w ⟨[]⟩ rfl rfl⟩

end MigratePkg

namespace MigratePkg

/-! ### Properties of the candidate loop -/

theorem lockHasFile_append (a b : List Result) (fp : String) :
    lockHasFile ⟨a ++ b⟩ fp = (lockHasFile ⟨a⟩ fp || lockHasFile ⟨b⟩ fp) := by
  simp [lockHasFile, List.any_append]

theorem lockHasFile_of_mem {rs : List Result} {r : Result} (hr : r ∈ rs) :
    lockHasFile ⟨rs⟩ r.filepath = true := by
  simp only [lockHasFile, List.any_eq_true]
  exact ⟨r, hr, by simp⟩

theorem loop_cons_dir {env : Env} {lock : Lock} {exts : List String} {dir : String}
    {e : DirEntry} {rest : List DirEntry} (hd : e.isDir = true) :
    migrateDirLoop env lock exts dir (e :: rest) = migrateDirLoop env lock exts dir rest := by
  simp only [migrateDirLoop]
  rw [if_pos hd]

theorem loop_cons_badext {env : Env} {lock : Lock} {exts : List String} {dir : String}
    {e : DirEntry} {rest : List DirEntry} (hd : e.isDir = false)
    (hx : exts.contains (fileExt e.name) = false) :
    migrateDirLoop env lock exts dir (e :: rest) = migrateDirLoop env lock exts dir rest := by
  simp only [migrateDirLoop]
  rw [if_neg (by simp [hd]), if_pos (by rw [hx]; rfl)]

theorem loop_cons_locked {env : Env} {lock : Lock} {exts : List String} {dir : String}
    {e : DirEntry} {rest : List DirEntry} (hd : e.isDir = false)
    (hx : exts.contains (fileExt e.name) = true)
    (hl : lockHasFile lock (pathJoin dir e.name) = true) :
    migrateDirLoop env lock exts dir (e :: rest) = migrateDirLoop env lock exts dir rest := by
  simp only [migrateDirLoop]
  rw [if_neg (by simp [hd]), if_neg (by rw [hx]; simp), if_pos hl]

theorem loop_cons_noread {env : Env} {lock : Lock} {exts : List String} {dir : String}
    {e : DirEntry} {rest : List DirEntry} (hd : e.isDir = false)
    (hx : exts.contains (fileExt e.name) = true)
    (hl : lockHasFile lock (pathJoin dir e.name) = false)
    (hr : env.readFile (pathJoin dir e.name) = none) :
    migrateDirLoop env lock exts dir (e :: rest) =
      ⟨[], some (.checksum (pathJoin dir e.name)), [], []⟩ := by
  simp only [migrateDirLoop]
  rw [if_neg (by simp [hd]), if_neg (by rw [hx]; simp), if_neg (by simp [hl]),
    show calculateSum env (pathJoin dir e.name) = none from by simp [calculateSum, hr]]

theorem loop_cons_execT {env : Env} {lock : Lock} {exts : List String} {dir : String}
    {e : DirEntry} {rest : List DirEntry} {c : String} (hd : e.isDir = false)
    (hx : exts.contains (fileExt e.name) = true)
    (hl : lockHasFile lock (pathJoin dir e.name) = false)
    (hr : env.readFile (pathJoin dir e.name) = some c) (hq : env.exec c = true) :
    migrateDirLoop env lock exts dir (e :: rest) =
      ⟨⟨pathJoin dir e.name, env.now, env.hash c⟩ ::
          (migrateDirLoop env lock exts dir rest).results,
        (migrateDirLoop env lock exts dir rest).err,
        pathJoin dir e.name :: (migrateDirLoop env lock exts dir rest).sums,
        pathJoin dir e.name :: (migrateDirLoop env lock exts dir rest).execs⟩ := by
  simp only [migrateDirLoop]
  rw [if_neg (by simp [hd]), if_neg (by rw [hx]; simp), if_neg (by simp [hl]),
    show calculateSum env (pathJoin dir e.name) = some (env.hash c) from by
      simp [calculateSum, hr],
    hr]
  simp [hq]

theorem loop_cons_execF {env : Env} {lock : Lock} {exts : List String} {dir : String}
    {e : DirEntry} {rest : List DirEntry} {c : String} (hd : e.isDir = false)
    (hx : exts.contains (fileExt e.name) = true)
    (hl : lockHasFile lock (pathJoin dir e.name) = false)
    (hr : env.readFile (pathJoin dir e.name) = some c) (hq : env.exec c = false) :
    migrateDirLoop env lock exts dir (e :: rest) =
      ⟨[], some (.execFile (pathJoin dir e.name)),
        [pathJoin dir e.name], [pathJoin dir e.name]⟩ := by
  simp only [migrateDirLoop]
  rw [if_neg (by simp [hd]), if_neg (by rw [hx]; simp), if_neg (by simp [hl]),
    show calculateSum env (pathJoin dir e.name) = some (env.hash c) from by
      simp [calculateSum, hr],
    hr]
  simp [hq]

/-- Every file content submitted to the database during the candidate
loop belongs to a path that was absent from the ledger. -/
theorem mem_execs_loop (env : Env) (lock : Lock) (exts : List String) (dir : String)
    (entries : List DirEntry) (fp : String)
    (h : fp ∈ (migrateDirLoop env lock exts dir entries).execs) :
    lockHasFile lock fp = false := by
  induction entries with
  | nil => simp [migrateDirLoop] at h
  | cons e rest ih =>
    cases hd : e.isDir with
    | true => rw [loop_cons_dir hd] at h; exact ih h
    | false =>
      cases hx : exts.contains (fileExt e.name) with
      | false => rw [loop_cons_badext hd hx] at h; exact ih h
      | true =>
        cases hl : lockHasFile lock (pathJoin dir e.name) with
        | true => rw [loop_cons_locked hd hx hl] at h; exact ih h
        | false =>
          cases hr : env.readFile (pathJoin dir e.name) with
          | none => rw [loop_cons_noread hd hx hl hr] at h; simp at h
          | some c =>
            cases hq : env.exec c with
            | true =>
              rw [loop_cons_execT hd hx hl hr hq] at h
              simp only [List.mem_cons] at h
              rcases h with rfl | h
              · exact hl
              · exact ih h
            | false =>
              rw [loop_cons_execF hd hx hl hr hq] at h
              simp only [List.mem_singleton] at h
              exact h ▸ hl

/-- Every path in the exec trace of the loop is also in its checksum
trace. -/
theorem execs_subset_sums_loop (env : Env) (lock : Lock) (exts : List String) (dir : String)
    (entries : List DirEntry) (fp : String)
    (h : fp ∈ (migrateDirLoop env lock exts dir entries).execs) :
    fp ∈ (migrateDirLoop env lock exts dir entries).sums := by
  induction entries with
  | nil => simp [migrateDirLoop] at h
  | cons e rest ih =>
    cases hd : e.isDir with
    | true => rw [loop_cons_dir hd] at h ⊢; exact ih h
    | false =>
      cases hx : exts.contains (fileExt e.name) with
      | false => rw [loop_cons_badext hd hx] at h ⊢; exact ih h
      | true =>
        cases hl : lockHasFile lock (pathJoin dir e.name) with
        | true => rw [loop_cons_locked hd hx hl] at h ⊢; exact ih h
        | false =>
          cases hr : env.readFile (pathJoin dir e.name) with
          | none => rw [loop_cons_noread hd hx hl hr] at h; simp at h
          | some c =>
            cases hq : env.exec c with
            | true =>
              rw [loop_cons_execT hd hx hl hr hq] at h ⊢
              simp only [List.mem_cons] at h ⊢
              rcases h with rfl | h
              · exact Or.inl rfl
              · exact Or.inr (ih h)
            | false =>
              rw [loop_cons_execF hd hx hl hr hq] at h ⊢
              exact h

/-- Every Result produced by the loop has its path in the checksum
trace. -/
theorem results_subset_sums_loop (env : Env) (lock : Lock) (exts : List String) (dir : String)
    (entries : List DirEntry) (r : Result)
    (h : r ∈ (migrateDirLoop env lock exts dir entries).results) :
    r.filepath ∈ (migrateDirLoop env lock exts dir entries).sums := by
  induction entries with
  | nil => simp [migrateDirLoop] at h
  | cons e rest ih =>
    cases hd : e.isDir with
    | true => rw [loop_cons_dir hd] at h ⊢; exact ih h
    | false =>
      cases hx : exts.contains (fileExt e.name) with
      | false => rw [loop_cons_badext hd hx] at h ⊢; exact ih h
      | true =>
        cases hl : lockHasFile lock (pathJoin dir e.name) with
        | true => rw [loop_cons_locked hd hx hl] at h ⊢; exact ih h
        | false =>
          cases hr : env.readFile (pathJoin dir e.name) with
          | none => rw [loop_cons_noread hd hx hl hr] at h; simp at h
          | some c =>
            cases hq : env.exec c with
            | true =>
              rw [loop_cons_execT hd hx hl hr hq] at h ⊢
              simp only [List.mem_cons] at h ⊢
              rcases h with rfl | h
              · exact Or.inl rfl
              · exact Or.inr (ih h)
            | false =>
              rw [loop_cons_execF hd hx hl hr hq] at h
              simp at h

/-- Characterisation of the checksum trace: only regular entries whose
extension is recognised and whose joined path is absent from the
ledger are ever processed. -/
theorem mem_sums_loop (env : Env) (lock : Lock) (exts : List String) (dir : String)
    (entries : List DirEntry) (fp : String)
    (h : fp ∈ (migrateDirLoop env lock exts dir entries).sums) :
    ∃ e ∈ entries, e.isDir = false ∧ exts.contains (fileExt e.name) = true ∧
      lockHasFile lock (pathJoin dir e.name) = false ∧ fp = pathJoin dir e.name := by
  induction entries with
  | nil => simp [migrateDirLoop] at h
  | cons e rest ih =>
    have step : ∀ h2 : fp ∈ (migrateDirLoop env lock exts dir rest).sums,
        ∃ e2 ∈ e :: rest, e2.isDir = false ∧ exts.contains (fileExt e2.name) = true ∧
          lockHasFile lock (pathJoin dir e2.name) = false ∧ fp = pathJoin dir e2.name := by
      intro h2
      obtain ⟨e2, he2, hrest⟩ := ih h2
      exact ⟨e2, List.mem_cons_of_mem _ he2, hrest⟩
    cases hd : e.isDir with
    | true => rw [loop_cons_dir hd] at h; exact step h
    | false =>
      cases hx : exts.contains (fileExt e.name) with
      | false => rw [loop_cons_badext hd hx] at h; exact step h
      | true =>
        cases hl : lockHasFile lock (pathJoin dir e.name) with
        | true => rw [loop_cons_locked hd hx hl] at h; exact step h
        | false =>
          cases hr : env.readFile (pathJoin dir e.name) with
          | none => rw [loop_cons_noread hd hx hl hr] at h; simp at h
          | some c =>
            cases hq : env.exec c with
            | true =>
              rw [loop_cons_execT hd hx hl hr hq] at h
              simp only [List.mem_cons] at h
              rcases h with rfl | h
              · exact ⟨e, List.mem_cons_self e rest, hd, hx, hl, rfl⟩
              · exact step h
            | false =>
              rw [loop_cons_execF hd hx hl hr hq] at h
              simp only [List.mem_singleton] at h
              exact ⟨e, List.mem_cons_self e rest, hd, hx, hl, h⟩

/-- Completeness: when the loop finishes without an error, every
pending candidate entry was processed (its checksum appears in the
trace). -/
theorem loop_complete (env : Env) (lock : Lock) (exts : List String) (dir : String)
    (entries : List DirEntry)
    (herr : (migrateDirLoop env lock exts dir entries).err = none)
    (e : DirEntry) (he : e ∈ entries) (hd : e.isDir = false)
    (hx : exts.contains (fileExt e.name) = true)
    (hlock : lockHasFile lock (pathJoin dir e.name) = false) :
    pathJoin dir e.name ∈ (migrateDirLoop env lock exts dir entries).sums := by
  induction entries with
  | nil => simp at he
  | cons e0 rest ih =>
    simp only [List.mem_cons] at he
    cases hd0 : e0.isDir with
    | true =>
      rw [loop_cons_dir hd0] at herr ⊢
      rcases he with rfl | he
      · rw [hd0] at hd; exact absurd hd (by simp)
      · exact ih herr he
    | false =>
      cases hx0 : exts.contains (fileExt e0.name) with
      | false =>
        rw [loop_cons_badext hd0 hx0] at herr ⊢
        rcases he with rfl | he
        · rw [hx0] at hx; exact absurd hx (by simp)
        · exact ih herr he
      | true =>
        cases hl0 : lockHasFile lock (pathJoin dir e0.name) with
        | true =>
          rw [loop_cons_locked hd0 hx0 hl0] at herr ⊢
          rcases he with rfl | he
          · rw [hl0] at hlock; exact absurd hlock (by simp)
          · exact ih herr he
        | false =>
          cases hr0 : env.readFile (pathJoin dir e0.name) with
          | none => rw [loop_cons_noread hd0 hx0 hl0 hr0] at herr; simp at herr
          | some c =>
            cases hq0 : env.exec c with
            | true =>
              rw [loop_cons_execT hd0 hx0 hl0 hr0 hq0] at herr ⊢
              simp only [List.mem_cons]
              rcases he with rfl | he
              · exact Or.inl rfl
              · exact Or.inr (ih herr he)
            | false =>
              rw [loop_cons_execF hd0 hx0 hl0 hr0 hq0] at herr
              simp at herr

/-- Coverage: when the loop finishes without an error, every candidate
entry is either already in the ledger or among the produced Results. -/
theorem loop_covered (env : Env) (lock : Lock) (exts : List String) (dir : String)
    (entries : List DirEntry)
    (herr : (migrateDirLoop env lock exts dir entries).err = none)
    (e : DirEntry) (he : e ∈ entries) (hd : e.isDir = false)
    (hx : exts.contains (fileExt e.name) = true) :
    lockHasFile lock (pathJoin dir e.name) = true ∨
      ∃ r ∈ (migrateDirLoop env lock exts dir entries).results,
        r.filepath = pathJoin dir e.name := by
  by_cases hlock : lockHasFile lock (pathJoin dir e.name) = true
  · exact Or.inl hlock
  · rw [Bool.not_eq_true] at hlock
    refine Or.inr ?_
    induction entries with
    | nil => simp at he
    | cons e0 rest ih =>
      simp only [List.mem_cons] at he
      cases hd0 : e0.isDir with
      | true =>
        rw [loop_cons_dir hd0] at herr ⊢
        rcases he with rfl | he
        · rw [hd0] at hd; exact absurd hd (by simp)
        · exact ih herr he
      | false =>
        cases hx0 : exts.contains (fileExt e0.name) with
        | false =>
          rw [loop_cons_badext hd0 hx0] at herr ⊢
          rcases he with rfl | he
          · rw [hx0] at hx; exact absurd hx (by simp)
          · exact ih herr he
        | true =>
          cases hl0 : lockHasFile lock (pathJoin dir e0.name) with
          | true =>
            rw [loop_cons_locked hd0 hx0 hl0] at herr ⊢
            rcases he with rfl | he
            · rw [hl0] at hlock; exact absurd hlock (by simp)
            · exact ih herr he
          | false =>
            cases hr0 : env.readFile (pathJoin dir e0.name) with
            | none => rw [loop_cons_noread hd0 hx0 hl0 hr0] at herr; simp at herr
            | some c =>
              cases hq0 : env.exec c with
              | true =>
                rw [loop_cons_execT hd0 hx0 hl0 hr0 hq0] at herr ⊢
                rcases he with rfl | he
                · exact ⟨⟨pathJoin dir e.name, env.now, env.hash c⟩,
                    List.mem_cons_self _ _, rfl⟩
                · obtain ⟨r, hr, hfp⟩ := ih herr he
                  exact ⟨r, List.mem_cons_of_mem _ hr, hfp⟩
              | false =>
                rw [loop_cons_execF hd0 hx0 hl0 hr0 hq0] at herr
                simp at herr

/-- When every entry is skipped (a subdirectory, an unrecognised
extension, or already in the ledger), the loop does nothing. -/
theorem loop_all_skip (env : Env) (lock : Lock) (exts : List String) (dir : String)
    (entries : List DirEntry)
    (h : ∀ e ∈ entries, e.isDir = true ∨ exts.contains (fileExt e.name) = false ∨
      lockHasFile lock (pathJoin dir e.name) = true) :
    migrateDirLoop env lock exts dir entries = ⟨[], none, [], []⟩ := by
  induction entries with
  | nil => rfl
  | cons e rest ih =>
    have hrest := ih fun x hx => h x (List.mem_cons_of_mem _ hx)
    rcases h e (List.mem_cons_self e rest) with hd | hx | hlock
    · rw [loop_cons_dir hd, hrest]
    · cases hd : e.isDir with
      | true => rw [loop_cons_dir hd, hrest]
      | false => rw [loop_cons_badext hd hx, hrest]
    · cases hd : e.isDir with
      | true => rw [loop_cons_dir hd, hrest]
      | false =>
        cases hx : exts.contains (fileExt e.name) with
        | false => rw [loop_cons_badext hd hx, hrest]
        | true => rw [loop_cons_locked hd hx hlock, hrest]

end MigratePkg

namespace MigratePkg

/-! ### Lifting to migrateDir and the location loop -/

theorem migrateDir_read_fail {env : Env} {cfg : Config} {lock : Lock} {dir : String}
    (hg : getDirFiles env dir = none) :
    migrateDir env cfg lock dir = ⟨none, some (.readDir dir), [], []⟩ := by
  unfold migrateDir
  rw [hg]

theorem migrateDir_read_ok {env : Env} {cfg : Config} {lock : Lock} {dir : String}
    {files : List DirEntry} (hg : getDirFiles env dir = some files) :
    migrateDir env cfg lock dir =
      ⟨some (migrateDirLoop env lock (effFileExtensions cfg) dir files).results,
        (migrateDirLoop env lock (effFileExtensions cfg) dir files).err,
        (migrateDirLoop env lock (effFileExtensions cfg) dir files).sums,
        (migrateDirLoop env lock (effFileExtensions cfg) dir files).execs⟩ := by
  unfold migrateDir
  rw [hg]

theorem dirs_cons_stop {env : Env} {cfg : Config} {lock : Lock} {d : String}
    {rest : List String} {rs : List Result} {e : Err}
    (hres : (migrateDir env cfg lock d).results = some rs)
    (herr : (migrateDir env cfg lock d).err = some e) :
    doMigrateDirs env cfg lock (d :: rest) =
      ⟨rs, some e, (migrateDir env cfg lock d).sums, (migrateDir env cfg lock d).execs,
        [d]⟩ := by
  simp only [doMigrateDirs]
  rw [hres, herr]

theorem dirs_cons_stop_none {env : Env} {cfg : Config} {lock : Lock} {d : String}
    {rest : List String} {e : Err}
    (hres : (migrateDir env cfg lock d).results = none)
    (herr : (migrateDir env cfg lock d).err = some e) :
    doMigrateDirs env cfg lock (d :: rest) =
      ⟨[], some e, (migrateDir env cfg lock d).sums, (migrateDir env cfg lock d).execs,
        [d]⟩ := by
  simp only [doMigrateDirs]
  rw [hres, herr]

theorem dirs_cons_go {env : Env} {cfg : Config} {lock : Lock} {d : String}
    {rest : List String} {rs : List Result}
    (hres : (migrateDir env cfg lock d).results = some rs)
    (herr : (migrateDir env cfg lock d).err = none) :
    doMigrateDirs env cfg lock (d :: rest) =
      ⟨rs ++ (doMigrateDirs env cfg lock rest).results,
        (doMigrateDirs env cfg lock rest).err,
        (migrateDir env cfg lock d).sums ++ (doMigrateDirs env cfg lock rest).sums,
        (migrateDir env cfg lock d).execs ++ (doMigrateDirs env cfg lock rest).execs,
        d :: (doMigrateDirs env cfg lock rest).dirsRead⟩ := by
  simp only [doMigrateDirs]
  rw [hres, herr]

theorem mem_execs_migrateDir {env : Env} {cfg : Config} {lock : Lock} {dir : String}
    {fp : String} (h : fp ∈ (migrateDir env cfg lock dir).execs) :
    lockHasFile lock fp = false := by
  cases hg : getDirFiles env dir with
  | none => rw [migrateDir_read_fail hg] at h; simp at h
  | some files =>
    rw [migrateDir_read_ok hg] at h
    exact mem_execs_loop env lock (effFileExtensions cfg) dir files fp h

theorem mem_execs_doMigrateDirs {env : Env} {cfg : Config} {lock : Lock}
    {dirs : List String} {fp : String}
    (h : fp ∈ (doMigrateDirs env cfg lock dirs).execs) :
    lockHasFile lock fp = false := by
  induction dirs with
  | nil => simp [doMigrateDirs] at h
  | cons d rest ih =>
    cases herr : (migrateDir env cfg lock d).err with
    | some e =>
      cases hres : (migrateDir env cfg lock d).results with
      | none =>
        rw [dirs_cons_stop_none hres herr] at h
        exact mem_execs_migrateDir h
      | some rs =>
        rw [dirs_cons_stop hres herr] at h
        exact mem_execs_migrateDir h
    | none =>
      cases hres : (migrateDir env cfg lock d).results with
      | none =>
        have : (migrateDir env cfg lock d).err = some (.readDir d) := by
          cases hg : getDirFiles env d with
          | none => rw [migrateDir_read_fail hg] at hres ⊢
          | some files => rw [migrateDir_read_ok hg] at hres; simp at hres
        rw [this] at herr
        simp at herr
      | some rs =>
        rw [dirs_cons_go hres herr] at h
        rcases List.mem_append.mp h with h | h
        · exact mem_execs_migrateDir h
        · exact ih h

/-! ### Permutation facts about the sort -/

theorem orderedInsert_perm (a : DirEntry) (l : List DirEntry) :
    (orderedInsert a l).Perm (a :: l) := by
  induction l with
  | nil => exact List.Perm.refl _
  | cons b t ih =>
    unfold orderedInsert
    by_cases h : entLE a b = true
    · rw [if_pos h]
    · rw [if_neg h]
      exact (ih.cons b).trans (List.Perm.swap a b t)

theorem sortEntries_perm (l : List DirEntry) : (sortEntries l).Perm l := by
  induction l with
  | nil => exact List.Perm.refl _
  | cons a t ih => exact (orderedInsert_perm a (sortEntries t)).trans (ih.cons a)

theorem mem_sortEntries {x : DirEntry} {l : List DirEntry} : x ∈ sortEntries l ↔ x ∈ l :=
  (sortEntries_perm l).mem_iff

/-! ### Claim C4 -/

/-- C4: the already-applied membership test is true iff some Result in
the ledger has a Filepath exactly string-equal to the queried path; and
a path present in the ledger is never submitted to the database by a
run with that ledger, whatever the current file contents are (the
stored checksum is never consulted). -/
theorem C4_path_only_membership :
    (∀ (lock : Lock) (fp : String),
        lockHasFile lock fp = true ↔ ∃ r ∈ lock.migrations, fp = r.filepath) ∧
    (∀ (env : Env) (cfg : Config) (lock : Lock) (fp : String),
        lockHasFile lock fp = true → fp ∉ (doMigrate env cfg lock).execs) := by
  constructor
  · intro lock fp
    simp [lockHasFile, List.any_eq_true, beq_iff_eq]
  · intro env cfg lock fp hlock hmem
    rw [doMigrate] at hmem
    have := mem_execs_doMigrateDirs hmem
    rw [hlock] at this
    simp at this

def lockC4 : Lock := ⟨[⟨"migrations/001-init.sql", 3, "digest-of-original"⟩]⟩

def envC4 : Env :=
  ⟨fun d => if d = "migrations" then some [⟨"001-init.sql", false⟩] else none,
    fun fp => if fp = "migrations/001-init.sql" then some "ALTERED CONTENT" else none,
    fun s => s, fun _ => true, fun _ => .absent, true, 9⟩

def cfgC4 : Config := ⟨["migrations"], none, ".migrate.lock.json"⟩

theorem C4_witness :
    lockHasFile lockC4 "migrations/001-init.sql" = true ∧
      "migrations/001-init.sql" ∉ (doMigrate envC4 cfgC4 lockC4).execs :=
  ⟨rfl, C4_path_only_membership.2 envC4 cfgC4 lockC4 "migrations/001-init.sql" rfl⟩

/-! ### Claim C10 -/

/-- C10: a directory entry is processed as a candidate iff it is not a
subdirectory and its full extension suffix is, case-sensitively, one of
the effective extensions (and it is not yet in the ledger); a nil
configured extension list defaults to [".sql"]; an explicitly empty
extension list yields no candidates at all; a file with an
unrecognised extension is never discovered or applied. -/
theorem C10_extension_filtering :
    (∀ cfg : Config, cfg.fileExtensions = none → effFileExtensions cfg = [".sql"]) ∧
    (∀ (env : Env) (cfg : Config) (lock : Lock) (dir : String),
        cfg.fileExtensions = some [] →
          (migrateDir env cfg lock dir).sums = [] ∧
          (migrateDir env cfg lock dir).execs = [] ∧
          ((migrateDir env cfg lock dir).results = none ∨
            (migrateDir env cfg lock dir).results = some [])) ∧
    (∀ (env : Env) (cfg : Config) (lock : Lock) (dir : String) (files : List DirEntry)
        (fp : String), env.readDir dir = some files →
          fp ∈ (migrateDir env cfg lock dir).sums →
          ∃ e ∈ files, e.isDir = false ∧
            (effFileExtensions cfg).contains (fileExt e.name) = true ∧
            lockHasFile lock (pathJoin dir e.name) = false ∧ fp = pathJoin dir e.name) ∧
    (∀ (env : Env) (cfg : Config) (lock : Lock) (dir : String) (files : List DirEntry)
        (e : DirEntry), env.readDir dir = some files →
          (migrateDir env cfg lock dir).err = none → e ∈ files → e.isDir = false →
          (effFileExtensions cfg).contains (fileExt e.name) = true →
          lockHasFile lock (pathJoin dir e.name) = false →
          pathJoin dir e.name ∈ (migrateDir env cfg lock dir).sums) := by
  refine ⟨?_, ?_, ?_, ?_⟩
  · intro cfg h
    simp [effFileExtensions, h, defaultFileExtensions]
  · intro env cfg lock dir h
    cases hg : getDirFiles env dir with
    | none => rw [migrateDir_read_fail hg]; exact ⟨rfl, rfl, Or.inl rfl⟩
    | some files =>
      rw [migrateDir_read_ok hg]
      have hx : effFileExtensions cfg = [] := by simp [effFileExtensions, h]
      have := loop_all_skip env lock (effFileExtensions cfg) dir files
        (fun e _ => Or.inr (Or.inl (by rw [hx]; rfl)))
      rw [this]
      exact ⟨rfl, rfl, Or.inr rfl⟩
  · intro env cfg lock dir files fp hread h
    have hg : getDirFiles env dir = some (sortEntries files) := by
      simp [getDirFiles, hread]
    rw [migrateDir_read_ok hg] at h
    obtain ⟨e, he, hrest⟩ :=
      mem_sums_loop env lock (effFileExtensions cfg) dir (sortEntries files) fp h
    exact ⟨e, mem_sortEntries.mp he, hrest⟩
  · intro env cfg lock dir files e hread herr he hd hx hlock
    have hg : getDirFiles env dir = some (sortEntries files) := by
      simp [getDirFiles, hread]
    rw [migrateDir_read_ok hg] at herr ⊢
    exact loop_complete env lock (effFileExtensions cfg) dir (sortEntries files) herr
      e (mem_sortEntries.mpr he) hd hx hlock

def envC10 : Env :=
  ⟨fun d => if d = "m" then some [⟨"notes.txt", false⟩, ⟨"001.sql", false⟩] else none,
    fun fp => if fp = "m/001.sql" then some "CREATE TABLE t (x INT);" else none,
    fun s => s, fun _ => true, fun _ => .absent, true, 4⟩

def cfgC10 : Config := ⟨["m"], none, ".migrate.lock.json"⟩

theorem C10_witness :
    "m/001.sql" ∈ (migrateDir envC10 cfgC10 ⟨[]⟩ "m").sums ∧
      ∃ e ∈ [DirEntry.mk "notes.txt" false, DirEntry.mk "001.sql" false],
        e.isDir = false ∧
          (effFileExtensions cfgC10).contains (fileExt e.name) = true ∧
          lockHasFile ⟨[]⟩ (pathJoin "m" e.name) = false ∧
          "m/001.sql" = pathJoin "m" e.name :=
  ⟨by decide,
    C10_extension_filtering.2.2.1 envC10 cfgC10 ⟨[]⟩ "m"
      [DirEntry.mk "notes.txt" false, DirEntry.mk "001.sql" false] "m/001.sql" rfl
      (by decide)⟩

end MigratePkg

namespace MigratePkg

/-! ### Rerun lemmas and claim C1 -/

theorem migrateDir_err_of_results_none {env : Env} {cfg : Config} {lock : Lock} {d : String}
    (hres : (migrateDir env cfg lock d).results = none) :
    (migrateDir env cfg lock d).err = some (.readDir d) := by
  cases hg : getDirFiles env d with
  | none => rw [migrateDir_read_fail hg]
  | some files => rw [migrateDir_read_ok hg] at hres; simp at hres

theorem loadLockFile_setLock (env : Env) (p : String) (lock : Lock) :
    loadLockFile (setLock env p lock) p = (lock, none) := by
  simp [loadLockFile, setLock, decodeLock_encodeLock]

/-- A directory that was fully processed without error by a first run
is a no-op for any second run whose ledger covers both the first
ledger and the Results the first run produced there. -/
theorem migrateDir_rerun (env env2 : Env) (cfg : Config) (lock lock2 : Lock) (dir : String)
    (hrd : env2.readDir = env.readDir)
    (herr : (migrateDir env cfg lock dir).err = none)
    (hsub : ∀ fp, lockHasFile lock fp = true → lockHasFile lock2 fp = true)
    (hres : ∀ r rs, (migrateDir env cfg lock dir).results = some rs → r ∈ rs →
      lockHasFile lock2 r.filepath = true) :
    migrateDir env2 cfg lock2 dir = ⟨some [], none, [], []⟩ := by
  cases hg : getDirFiles env dir with
  | none => rw [migrateDir_read_fail hg] at herr; simp at herr
  | some files =>
    have hg2 : getDirFiles env2 dir = some files := by
      rw [getDirFiles, hrd, ← getDirFiles, hg]
    rw [migrateDir_read_ok hg] at herr hres
    rw [migrateDir_read_ok hg2]
    rw [loop_all_skip env2 lock2 (effFileExtensions cfg) dir files ?_]
    intro e he
    cases hd : e.isDir with
    | true => exact Or.inl rfl
    | false =>
      cases hx : (effFileExtensions cfg).contains (fileExt e.name) with
      | false => exact Or.inr (Or.inl rfl)
      | true =>
        refine Or.inr (Or.inr ?_)
        rcases loop_covered env lock (effFileExtensions cfg) dir files herr e he hd hx with
          hin | ⟨r, hr, hfp⟩
        · exact hsub _ hin
        · exact hfp ▸ hres r _ rfl hr

/-- A location list fully processed without error by a first run is a
no-op for any second run whose ledger covers the first ledger and all
Results the first run produced. -/
theorem doMigrateDirs_rerun (env env2 : Env) (cfg : Config) (lock lock2 : Lock)
    (dirs : List String)
    (hrd : env2.readDir = env.readDir)
    (herr : (doMigrateDirs env cfg lock dirs).err = none)
    (hsub : ∀ fp, lockHasFile lock fp = true → lockHasFile lock2 fp = true)
    (hres : ∀ r, r ∈ (doMigrateDirs env cfg lock dirs).results →
      lockHasFile lock2 r.filepath = true) :
    (doMigrateDirs env2 cfg lock2 dirs).results = [] ∧
      (doMigrateDirs env2 cfg lock2 dirs).err = none := by
  induction dirs with
  | nil => exact ⟨rfl, rfl⟩
  | cons d rest ih =>
    cases herrd : (migrateDir env cfg lock d).err with
    | some e =>
      cases hresd : (migrateDir env cfg lock d).results with
      | none => rw [dirs_cons_stop_none hresd herrd] at herr; simp at herr
      | some rs => rw [dirs_cons_stop hresd herrd] at herr; simp at herr
    | none =>
      cases hresd : (migrateDir env cfg lock d).results with
      | none =>
        rw [migrateDir_err_of_results_none hresd] at herrd
        simp at herrd
      | some rs =>
        rw [dirs_cons_go hresd herrd] at herr hres
        have hres1 : ∀ r rs2, (migrateDir env cfg lock d).results = some rs2 → r ∈ rs2 →
            lockHasFile lock2 r.filepath = true := by
          intro r rs2 h2 hr
          rw [hresd] at h2
          cases h2
          exact hres r (by simp [List.mem_append]; exact Or.inl hr)
        have hd2 := migrateDir_rerun env env2 cfg lock lock2 d hrd herrd hsub hres1
        have hrest := ih herr fun r hr =>
          hres r (by simp [List.mem_append]; exact Or.inr hr)
        rw [dirs_cons_go (by rw [hd2]) (by rw [hd2])]
        rw [hd2]
        simp [hrest.1, hrest.2]

theorem Migrate_load_ok {env : Env} {cfg : Config} {lock : Lock}
    (h : loadLockFile env cfg.lockFile = (lock, none)) (hw : env.writeOk = true) :
    Migrate env cfg =
      (⟨some (doMigrate env cfg lock).results, (doMigrate env cfg lock).err,
          some ⟨lock.migrations ++ (doMigrate env cfg lock).results⟩, false,
          (doMigrate env cfg lock).sums, (doMigrate env cfg lock).execs,
          (doMigrate env cfg lock).dirsRead⟩,
        setLock env cfg.lockFile ⟨lock.migrations ++ (doMigrate env cfg lock).results⟩) := by
  unfold Migrate
  rw [h]
  simp [writeLockFile, hw]

theorem Migrate_load_ok_panic {env : Env} {cfg : Config} {lock : Lock}
    (h : loadLockFile env cfg.lockFile = (lock, none)) (hw : env.writeOk = false) :
    (Migrate env cfg).1.panicked = true := by
  unfold Migrate
  rw [h]
  simp [writeLockFile, hw]

/-- C1: if a Migrate run completes successfully (no error, no panic)
and no migration files are added or removed (the environment is
unchanged except for the lock file the run itself wrote), then a
second Migrate run with the same configuration returns zero new
Results and no error. -/
theorem C1_idempotence (env : Env) (cfg : Config)
    (h1 : (Migrate env cfg).1.err = none)
    (h2 : (Migrate env cfg).1.panicked = false) :
    (Migrate (Migrate env cfg).2 cfg).1.results = some [] ∧
      (Migrate (Migrate env cfg).2 cfg).1.err = none := by
  rcases hload : loadLockFile env cfg.lockFile with ⟨lock, merr⟩
  cases merr with
  | some e =>
    unfold Migrate at h1
    rw [hload] at h1
    simp at h1
  | none =>
    cases hw : env.writeOk with
    | false => rw [Migrate_load_ok_panic hload hw] at h2; simp at h2
    | true =>
      rw [Migrate_load_ok hload hw] at h1 ⊢
      simp only at h1 ⊢
      set newLock : Lock := ⟨lock.migrations ++ (doMigrate env cfg lock).results⟩ with hnew
      have hload2 : loadLockFile (setLock env cfg.lockFile newLock) cfg.lockFile =
          (newLock, none) := loadLockFile_setLock env cfg.lockFile newLock
      have hw2 : (setLock env cfg.lockFile newLock).writeOk = true := hw
      rw [Migrate_load_ok hload2 hw2]
      simp only
      have hrerun := doMigrateDirs_rerun env (setLock env cfg.lockFile newLock) cfg lock
        newLock cfg.dirs rfl h1
        (fun fp hfp => by
          rw [hnew, lockHasFile_append, hfp]
          rfl)
        (fun r hr => by
          rw [hnew, lockHasFile_append]
          have : lockHasFile ⟨(doMigrate env cfg lock).results⟩ r.filepath = true :=
            lockHasFile_of_mem hr
          rw [this, Bool.or_true])
      simp only [doMigrate]
      exact ⟨by rw [hrerun.1], by rw [hrerun.2]⟩

def envC1 : Env :=
  ⟨fun d => if d = "migrations" then some [⟨"001-init.sql", false⟩] else none,
    fun fp => if fp = "migrations/001-init.sql" then some "CREATE TABLE t (x INT);" else none,
    fun s => s, fun _ => true, fun _ => .absent, true, 11⟩

def cfgC1 : Config := ⟨["migrations"], none, ".migrate.lock.json"⟩

theorem C1_witness :
    (Migrate envC1 cfgC1).1.err = none ∧ (Migrate envC1 cfgC1).1.panicked = false ∧
      (Migrate (Migrate envC1 cfgC1).2 cfgC1).1.results = some [] ∧
      (Migrate (Migrate envC1 cfgC1).2 cfgC1).1.err = none :=
  ⟨rfl, rfl, (C1_idempotence envC1 cfgC1 rfl rfl).1, (C1_idempotence envC1 cfgC1 rfl rfl).2⟩

end MigratePkg

namespace MigratePkg

/-! ### Claim C2 -/

/-- C2: when the database rejects a candidate file, Migrate stops
immediately: with three pending files in the first of two configured
locations, of which the first succeeds and the second fails, the run
returns exactly the first Result together with an error naming the
second file, writes the ledger extended by exactly the first Result
(the failing file is not recorded), computes checksums for and
executes exactly the first two files (the third is never attempted)
and never reads the second location. -/
theorem C2_partial_failure (env : Env) (cfg : Config) (L0 : Lock) (d d2 : String)
    (e1 e2 e3 : DirEntry) (c1 c2 : String)
    (hdirs : cfg.dirs = [d, d2])
    (hlockf : env.lockAt cfg.lockFile = .content (encodeLock L0))
    (hw : env.writeOk = true)
    (hrd : env.readDir d = some [e1, e2, e3])
    (hsorted : sortEntries [e1, e2, e3] = [e1, e2, e3])
    (hd1 : e1.isDir = false) (hd2 : e2.isDir = false)
    (hx1 : (effFileExtensions cfg).contains (fileExt e1.name) = true)
    (hx2 : (effFileExtensions cfg).contains (fileExt e2.name) = true)
    (hl1 : lockHasFile L0 (pathJoin d e1.name) = false)
    (hl2 : lockHasFile L0 (pathJoin d e2.name) = false)
    (hr1 : env.readFile (pathJoin d e1.name) = some c1)
    (hr2 : env.readFile (pathJoin d e2.name) = some c2)
    (hq1 : env.exec c1 = true)
    (hq2 : env.exec c2 = false)
    (hne : pathJoin d e1.name ≠ pathJoin d e2.name) :
    (Migrate env cfg).1 =
      ⟨some [⟨pathJoin d e1.name, env.now, env.hash c1⟩],
        some (.execFile (pathJoin d e2.name)),
        some ⟨L0.migrations ++ [⟨pathJoin d e1.name, env.now, env.hash c1⟩]⟩, false,
        [pathJoin d e1.name, pathJoin d e2.name],
        [pathJoin d e1.name, pathJoin d e2.name], [d]⟩ ∧
      lockHasFile ⟨L0.migrations ++ [⟨pathJoin d e1.name, env.now, env.hash c1⟩]⟩
        (pathJoin d e2.name) = false := by
  have hload : loadLockFile env cfg.lockFile = (L0, none) := by
    simp [loadLockFile, hlockf, decodeLock_encodeLock]
  have hloop2 : migrateDirLoop env L0 (effFileExtensions cfg) d [e2, e3] =
      ⟨[], some (.execFile (pathJoin d e2.name)),
        [pathJoin d e2.name], [pathJoin d e2.name]⟩ :=
    loop_cons_execF hd2 hx2 hl2 hr2 hq2
  have hloop1 : migrateDirLoop env L0 (effFileExtensions cfg) d [e1, e2, e3] =
      ⟨[⟨pathJoin d e1.name, env.now, env.hash c1⟩],
        some (.execFile (pathJoin d e2.name)),
        [pathJoin d e1.name, pathJoin d e2.name],
        [pathJoin d e1.name, pathJoin d e2.name]⟩ := by
    rw [loop_cons_execT hd1 hx1 hl1 hr1 hq1, hloop2]
  have hg : getDirFiles env d = some [e1, e2, e3] := by
    simp [getDirFiles, hrd, hsorted]
  have hmd : migrateDir env cfg L0 d =
      ⟨some [⟨pathJoin d e1.name, env.now, env.hash c1⟩],
        some (.execFile (pathJoin d e2.name)),
        [pathJoin d e1.name, pathJoin d e2.name],
        [pathJoin d e1.name, pathJoin d e2.name]⟩ := by
    rw [migrateDir_read_ok hg, hloop1]
  have hrun : doMigrate env cfg L0 =
      ⟨[⟨pathJoin d e1.name, env.now, env.hash c1⟩],
        some (.execFile (pathJoin d e2.name)),
        [pathJoin d e1.name, pathJoin d e2.name],
        [pathJoin d e1.name, pathJoin d e2.name], [d]⟩ := by
    rw [doMigrate, hdirs, dirs_cons_stop (by rw [hmd]) (by rw [hmd]), hmd]
  refine ⟨?_, ?_⟩
  · rw [Migrate_load_ok hload hw]
    simp only
    rw [hrun]
  · rw [lockHasFile_append, hl2]
    simp only [Bool.false_or, lockHasFile, List.any_cons, List.any_nil, Bool.or_false]
    exact beq_eq_false_iff_ne.mpr (Ne.symm hne)

def envC2 : Env :=
  ⟨fun d => if d = "m" then
      some [⟨"1.sql", false⟩, ⟨"2.sql", false⟩, ⟨"3.sql", false⟩] else none,
    fun fp => if fp = "m/1.sql" then some "OK ONE" else
      if fp = "m/2.sql" then some "BROKEN" else
      if fp = "m/3.sql" then some "OK THREE" else none,
    fun s => s, fun c => !(c == "BROKEN"), fun _ => .content (encodeLock ⟨[]⟩),
    true, 21⟩

def cfgC2 : Config := ⟨["m", "extra"], none, ".migrate.lock.json"⟩

theorem C2_witness :
    (Migrate envC2 cfgC2).1 =
      ⟨some [⟨"m/1.sql", 21, "OK ONE"⟩], some (.execFile "m/2.sql"),
        some ⟨[⟨"m/1.sql", 21, "OK ONE"⟩]⟩, false,
        ["m/1.sql", "m/2.sql"], ["m/1.sql", "m/2.sql"], ["m"]⟩ ∧
      lockHasFile ⟨[⟨"m/1.sql", 21, "OK ONE"⟩]⟩ "m/2.sql" = false := by
  have h := C2_partial_failure envC2 cfgC2 ⟨[]⟩ "m" "extra"
    ⟨"1.sql", false⟩ ⟨"2.sql", false⟩ ⟨"3.sql", false⟩ "OK ONE" "BROKEN"
    rfl rfl rfl rfl (by decide) rfl rfl (by decide) (by decide) rfl rfl rfl rfl rfl rfl
    (by decide)
  exact h

end MigratePkg

namespace MigratePkg

/-! ### Claim C5 -/

theorem pathJoin_injective (dir : String) : Function.Injective (pathJoin dir) := by
  intro n1 n2 h
  unfold pathJoin at h
  have h2 := congrArg String.data h
  simp only [String.data_append, List.append_assoc] at h2
  exact String.ext (List.append_cancel_left (List.append_cancel_left h2))

/-- The exec trace of the candidate loop visits the joined entry names
in order, each at most once per entry occurrence. -/
theorem loop_execs_sublist (env : Env) (lock : Lock) (exts : List String) (dir : String)
    (entries : List DirEntry) :
    List.Sublist (migrateDirLoop env lock exts dir entries).execs
      (entries.map fun e => pathJoin dir e.name) := by
  induction entries with
  | nil => exact List.nil_sublist _
  | cons e rest ih =>
    cases hd : e.isDir with
    | true => rw [loop_cons_dir hd]; exact ih.cons _
    | false =>
      cases hx : exts.contains (fileExt e.name) with
      | false => rw [loop_cons_badext hd hx]; exact ih.cons _
      | true =>
        cases hl : lockHasFile lock (pathJoin dir e.name) with
        | true => rw [loop_cons_locked hd hx hl]; exact ih.cons _
        | false =>
          cases hr : env.readFile (pathJoin dir e.name) with
          | none =>
            rw [loop_cons_noread hd hx hl hr]
            exact List.nil_sublist _
          | some c =>
            cases hq : env.exec c with
            | true => rw [loop_cons_execT hd hx hl hr hq]; exact ih.cons₂ _
            | false =>
              rw [loop_cons_execF hd hx hl hr hq]
              exact (List.nil_sublist _).cons₂ _

def envC5 : Env :=
  ⟨fun d => if d = "d" then some [⟨"1.sql", false⟩] else none,
    fun fp => if fp = "d/1.sql" then some "INSERT INTO t VALUES (1);" else none,
    fun s => s, fun _ => true, fun _ => .absent, true, 0⟩

def cfgC5 : Config := ⟨["d", "d"], none, ".migrate.lock.json"⟩

/-- C5 counterexample: with the same directory configured twice, a
single pending file is submitted to the database twice within one
Migrate run, and two Results with the same path are produced - the
in-memory ledger is not updated between files, so a path reachable
from more than one configured location is not applied at most once per
run. -/
theorem C5_counterexample :
    (Migrate envC5 cfgC5).1.execs = ["d/1.sql", "d/1.sql"] ∧
      (Migrate envC5 cfgC5).1.results =
        some [⟨"d/1.sql", 0, "INSERT INTO t VALUES (1);"⟩,
          ⟨"d/1.sql", 0, "INSERT INTO t VALUES (1);"⟩] :=
  ⟨rfl, rfl⟩

/-- C5 amended: each successfully executed file yields a Result in the
output accumulator, and the in-memory ledger is updated only once,
after all locations are processed, by appending all new Results.  A
path present in the ledger at the start of the run is never executed,
and within one configured location occurrence each distinctly named
entry is executed at most once; but the ledger is not consulted
against Results produced earlier in the same run, so a path reachable
from more than one configured location entry can be executed once per
occurrence. -/
theorem C5_amended :
    (∀ (env : Env) (cfg : Config) (lock : Lock),
        loadLockFile env cfg.lockFile = (lock, none) → env.writeOk = true →
          (Migrate env cfg).1.results = some (doMigrate env cfg lock).results ∧
          (Migrate env cfg).1.written =
            some ⟨lock.migrations ++ (doMigrate env cfg lock).results⟩) ∧
    (∀ (env : Env) (cfg : Config) (lock : Lock) (fp : String),
        lockHasFile lock fp = true → fp ∉ (doMigrate env cfg lock).execs) ∧
    (∀ (env : Env) (cfg : Config) (lock : Lock) (dir : String) (files : List DirEntry),
        env.readDir dir = some files → (files.map DirEntry.name).Nodup →
          (migrateDir env cfg lock dir).execs.Nodup) := by
  refine ⟨?_, ?_, ?_⟩
  · intro env cfg lock h hw
    rw [Migrate_load_ok h hw]
    exact ⟨rfl, rfl⟩
  · intro env cfg lock fp hlock hmem
    rw [doMigrate] at hmem
    have := mem_execs_doMigrateDirs hmem
    rw [hlock] at this
    simp at this
  · intro env cfg lock dir files hread hnd
    have hg : getDirFiles env dir = some (sortEntries files) := by
      simp [getDirFiles, hread]
    rw [migrateDir_read_ok hg]
    have hnd2 : ((sortEntries files).map fun e => pathJoin dir e.name).Nodup := by
      have hperm : ((sortEntries files).map fun e => pathJoin dir e.name).Perm
          (files.map fun e => pathJoin dir e.name) :=
        (sortEntries_perm files).map _
      rw [hperm.nodup_iff]
      have : (files.map fun e => pathJoin dir e.name) =
          (files.map DirEntry.name).map (pathJoin dir) := by
        rw [List.map_map]
        rfl
      rw [this]
      exact hnd.map (pathJoin_injective dir)
    exact hnd2.sublist
      (loop_execs_sublist env lock (effFileExtensions cfg) dir (sortEntries files))

def envC5w : Env :=
  ⟨fun d => if d = "d" then some [⟨"1.sql", false⟩, ⟨"2.sql", false⟩] else none,
    fun fp => if fp = "d/1.sql" then some "ONE" else
      if fp = "d/2.sql" then some "TWO" else none,
    fun s => s, fun _ => true, fun _ => .absent, true, 0⟩

def cfgC5w : Config := ⟨["d"], none, ".migrate.lock.json"⟩

theorem C5_witness :
    (loadLockFile envC5w cfgC5w.lockFile = (⟨[]⟩, none) ∧
        (Migrate envC5w cfgC5w).1.results = some (doMigrate envC5w cfgC5w ⟨[]⟩).results) ∧
      (lockHasFile ⟨[⟨"d/1.sql", 0, "ONE"⟩]⟩ "d/1.sql" = true ∧
        "d/1.sql" ∉ (doMigrate envC5w cfgC5w ⟨[⟨"d/1.sql", 0, "ONE"⟩]⟩).execs) ∧
      (migrateDir envC5w cfgC5w ⟨[]⟩ "d").execs.Nodup :=
  ⟨⟨rfl, (C5_amended.1 envC5w cfgC5w ⟨[]⟩ rfl rfl).1⟩,
    ⟨rfl, C5_amended.2.1 envC5w cfgC5w ⟨[⟨"d/1.sql", 0, "ONE"⟩]⟩ "d/1.sql" rfl⟩,
    C5_amended.2.2 envC5w cfgC5w ⟨[]⟩ "d" [⟨"1.sql", false⟩, ⟨"2.sql", false⟩] rfl
      (by decide)⟩

end MigratePkg

namespace MigratePkg

/-! ### Groundwork for claim C3: the lexicographic order -/

theorem charListLt_cons_cons (a b : Char) (as bs : List Char) :
    charListLt (a :: as) (b :: bs) =
      if a.toNat < b.toNat then true
      else if b.toNat < a.toNat then false else charListLt as bs := rfl

theorem charListLt_asymm : ∀ (a b : List Char), charListLt a b = true →
    charListLt b a = false
  | [], [], h => by simp [charListLt] at h
  | [], _ :: _, _ => rfl
  | _ :: _, [], h => by simp [charListLt] at h
  | a :: as, b :: bs, h => by
    rw [charListLt_cons_cons] at h ⊢
    by_cases h1 : a.toNat < b.toNat
    · rw [if_neg (by omega), if_pos h1]
    · by_cases h2 : b.toNat < a.toNat
      · rw [if_neg h1, if_pos h2] at h
        exact absurd h (by simp)
      · rw [if_neg h1, if_neg h2] at h
        rw [if_neg h2, if_neg h1]
        exact charListLt_asymm as bs h

theorem charListLt_trans : ∀ (a b c : List Char), charListLt a b = true →
    charListLt b c = true → charListLt a c = true
  | [], [], _, h1, _ => by simp [charListLt] at h1
  | [], _ :: _, [], _, h2 => by simp [charListLt] at h2
  | [], _ :: _, _ :: _, _, _ => rfl
  | _ :: _, [], _, h1, _ => by simp [charListLt] at h1
  | _ :: _, _ :: _, [], _, h2 => by simp [charListLt] at h2
  | a :: as, b :: bs, c :: cs, h1, h2 => by
    rw [charListLt_cons_cons] at h1 h2 ⊢
    by_cases hab : a.toNat < b.toNat
    · by_cases hbc : b.toNat < c.toNat
      · rw [if_pos (by omega)]
      · by_cases hcb : c.toNat < b.toNat
        · rw [if_neg hbc, if_pos hcb] at h2
          exact absurd h2 (by simp)
        · rw [if_pos (by omega)]
    · by_cases hba : b.toNat < a.toNat
      · rw [if_neg hab, if_pos hba] at h1
        exact absurd h1 (by simp)
      · rw [if_neg hab, if_neg hba] at h1
        by_cases hbc : b.toNat < c.toNat
        · rw [if_pos (by omega)]
        · by_cases hcb : c.toNat < b.toNat
          · rw [if_neg hbc, if_pos hcb] at h2
            exact absurd h2 (by simp)
          · rw [if_neg hbc, if_neg hcb] at h2
            rw [if_neg (by omega), if_neg (by omega)]
            exact charListLt_trans as bs cs h1 h2

theorem charListLt_conn : ∀ (a b : List Char), charListLt a b = false →
    charListLt b a = false → a = b
  | [], [], _, _ => rfl
  | [], _ :: _, h1, _ => by simp [charListLt] at h1
  | _ :: _, [], _, h2 => by simp [charListLt] at h2
  | a :: as, b :: bs, h1, h2 => by
    rw [charListLt_cons_cons] at h1 h2
    by_cases hab : a.toNat < b.toNat
    · rw [if_pos hab] at h1
      exact absurd h1 (by simp)
    · by_cases hba : b.toNat < a.toNat
      · rw [if_pos hba] at h2
        exact absurd h2 (by simp)
      · rw [if_neg hab, if_neg hba] at h1
        rw [if_neg hba, if_neg hab] at h2
        have hn : a.toNat = b.toNat := by omega
        have hc : a = b :=
          Char.eq_of_val_eq (UInt32.eq_of_toBitVec_eq (BitVec.eq_of_toNat_eq hn))
        rw [hc, charListLt_conn as bs h1 h2]

theorem strLt_asymm {a b : String} (h : strLt a b = true) : strLt b a = false :=
  charListLt_asymm a.data b.data h

theorem strLt_trans {a b c : String} (h1 : strLt a b = true) (h2 : strLt b c = true) :
    strLt a c = true :=
  charListLt_trans a.data b.data c.data h1 h2

theorem strLt_conn {a b : String} (h1 : strLt a b = false) (h2 : strLt b a = false) :
    a = b :=
  String.ext (charListLt_conn a.data b.data h1 h2)

/-! ### Classification of names by their first character -/

/-- Numeric value of the leading digit run of a name. -/
def nval (s : String) : Nat := digitsToNat (leadingDigitRun s)

/-- A name is within range when its leading digit run, if nonempty,
parses within the 64-bit `int` range (so `strconv.Atoi` succeeds on it). -/
def numOk (s : String) : Bool :=
  (leadingDigitRun s).isEmpty || decide (nval s ≤ maxGoInt)

/-- Comparison class of the first character: below the digits, a
digit, or above the digits. -/
def hcls (s : String) : Nat :=
  match s.data with
  | [] => 0
  | c :: _ => if c.toNat < 48 then 0 else if c.toNat ≤ 57 then 1 else 2

theorem hcls_nil {s : String} (h : s.data = []) : hcls s = 0 := by
  unfold hcls
  rw [h]

theorem hcls_low {s : String} {c : Char} {r : List Char} (h : s.data = c :: r)
    (hc : c.toNat < 48) : hcls s = 0 := by
  unfold hcls
  rw [h]
  show (if c.toNat < 48 then 0 else if c.toNat ≤ 57 then 1 else 2) = 0
  rw [if_pos hc]

theorem hcls_digit {s : String} {c : Char} {r : List Char} (h : s.data = c :: r)
    (hc1 : 48 ≤ c.toNat) (hc2 : c.toNat ≤ 57) : hcls s = 1 := by
  unfold hcls
  rw [h]
  show (if c.toNat < 48 then 0 else if c.toNat ≤ 57 then 1 else 2) = 1
  rw [if_neg (by omega), if_pos hc2]

theorem hcls_high {s : String} {c : Char} {r : List Char} (h : s.data = c :: r)
    (hc : 57 < c.toNat) : hcls s = 2 := by
  unfold hcls
  rw [h]
  show (if c.toNat < 48 then 0 else if c.toNat ≤ 57 then 1 else 2) = 2
  rw [if_neg (by omega), if_neg (by omega)]

theorem run_shape {s : String} (h : leadingDigitRun s ≠ []) :
    ∃ c r, s.data = c :: r ∧ 48 ≤ c.toNat ∧ c.toNat ≤ 57 := by
  unfold leadingDigitRun at h
  cases hd : s.data with
  | nil => rw [hd] at h; simp at h
  | cons c r =>
    rw [hd] at h
    cases hdi : c.isDigit with
    | false => simp [List.takeWhile_cons, hdi] at h
    | true =>
      simp [Char.isDigit] at hdi
      exact ⟨c, r, rfl, hdi.1, hdi.2⟩

theorem no_run_shape {s : String} (h : leadingDigitRun s = []) :
    s.data = [] ∨ ∃ c r, s.data = c :: r ∧ (c.toNat < 48 ∨ 57 < c.toNat) := by
  unfold leadingDigitRun at h
  cases hd : s.data with
  | nil => exact Or.inl rfl
  | cons c r =>
    rw [hd] at h
    cases hdi : c.isDigit with
    | true => simp [List.takeWhile_cons, hdi] at h
    | false =>
      simp [Char.isDigit] at hdi
      have h2 : 48 ≤ c.toNat → 57 < c.toNat := hdi
      exact Or.inr ⟨c, r, rfl, by omega⟩

theorem strLt_head_lt {a b : String} {c d : Char} {r t : List Char}
    (hcr : a.data = c :: r) (hdt : b.data = d :: t) (h : c.toNat < d.toNat) :
    strLt a b = true := by
  unfold strLt
  rw [hcr, hdt, charListLt_cons_cons, if_pos h]

theorem strLt_head_gt {a b : String} {c d : Char} {r t : List Char}
    (hcr : a.data = c :: r) (hdt : b.data = d :: t) (h : d.toNat < c.toNat) :
    strLt a b = false := by
  unfold strLt
  rw [hcr, hdt, charListLt_cons_cons, if_neg (by omega), if_pos h]

theorem strLt_nil_cons {a b : String} {d : Char} {t : List Char}
    (ha : a.data = []) (hb : b.data = d :: t) : strLt a b = true := by
  unfold strLt
  rw [ha, hb]
  rfl

theorem strLt_cons_nil {a b : String} {c : Char} {r : List Char}
    (ha : a.data = c :: r) (hb : b.data = []) : strLt a b = false := by
  unfold strLt
  rw [ha, hb]
  rfl

theorem extractNumber_none_of_run_nil {s : String} (h : leadingDigitRun s = []) :
    extractNumber s = none := by
  simp [extractNumber, h]

theorem extractNumber_eq_some {s : String} (h : leadingDigitRun s ≠ [])
    (hok : numOk s = true) : extractNumber s = some (nval s) := by
  have hle : nval s ≤ maxGoInt := by
    rcases Bool.or_eq_true_iff.mp hok with h1 | h1
    · exact absurd (List.isEmpty_iff.mp h1) h
    · exact of_decide_eq_true h1
  simp only [extractNumber]
  rw [if_neg h, if_pos (show digitsToNat (leadingDigitRun s) ≤ maxGoInt from hle)]
  rfl

theorem specOrderNum_eq {s : String} (h : numOk s = true) :
    extractNumber s = specOrderNum s := by
  by_cases hr : leadingDigitRun s = []
  · rw [extractNumber_none_of_run_nil hr]
    simp [specOrderNum, hr]
  · rw [extractNumber_eq_some hr h]
    simp only [specOrderNum]
    rw [if_neg hr]
    rfl

theorem dirLess_eq_specLess {a b : String} (ha : numOk a = true) (hb : numOk b = true) :
    dirLess a b = specLess a b := by
  unfold dirLess specLess
  rw [specOrderNum_eq ha, specOrderNum_eq hb]

end MigratePkg

namespace MigratePkg

/-! ### The comparator as a strict weak order on in-range names -/

/-- Abstract order underlying `dirLess` on in-range names: compare the
first-character class, then the numeric value inside the digit class,
and lexicographically inside the other classes. -/
def ord (a b : String) : Prop :=
  hcls a < hcls b ∨
    (hcls a = hcls b ∧
      ((hcls a = 1 ∧ nval a < nval b) ∨ (hcls a ≠ 1 ∧ strLt a b = true)))

/-- Names the comparator cannot distinguish: equal numeric value in the
digit class, literal equality in the other classes. -/
def tie (a b : String) : Prop :=
  hcls a = hcls b ∧ ((hcls a = 1 ∧ nval a = nval b) ∨ (hcls a ≠ 1 ∧ a = b))

theorem ord_trans {a b c : String} (h1 : ord a b) (h2 : ord b c) : ord a c := by
  rcases h1 with h1 | ⟨e1, h1⟩
  · rcases h2 with h2 | ⟨e2, h2⟩
    · exact Or.inl (lt_trans h1 h2)
    · exact Or.inl (by omega)
  · rcases h2 with h2 | ⟨e2, h2⟩
    · exact Or.inl (by omega)
    · refine Or.inr ⟨e1.trans e2, ?_⟩
      rcases h1 with ⟨ha1, hv1⟩ | ⟨ha1, hs1⟩
      · rcases h2 with ⟨ha2, hv2⟩ | ⟨ha2, hs2⟩
        · exact Or.inl ⟨ha1, lt_trans hv1 hv2⟩
        · rw [e1] at ha1
          exact absurd ha1 ha2
      · rcases h2 with ⟨ha2, hv2⟩ | ⟨ha2, hs2⟩
        · rw [e1] at ha1
          exact absurd ha2 ha1
        · exact Or.inr ⟨ha1, strLt_trans hs1 hs2⟩

theorem ord_total (a b : String) : ord a b ∨ ord b a ∨ tie a b := by
  rcases Nat.lt_trichotomy (hcls a) (hcls b) with h | h | h
  · exact Or.inl (Or.inl h)
  · by_cases h1 : hcls a = 1
    · rcases Nat.lt_trichotomy (nval a) (nval b) with hv | hv | hv
      · exact Or.inl (Or.inr ⟨h, Or.inl ⟨h1, hv⟩⟩)
      · exact Or.inr (Or.inr ⟨h, Or.inl ⟨h1, hv⟩⟩)
      · exact Or.inr (Or.inl (Or.inr ⟨h.symm, Or.inl ⟨h ▸ h1, hv⟩⟩))
    · cases hs : strLt a b with
      | true => exact Or.inl (Or.inr ⟨h, Or.inr ⟨h1, hs⟩⟩)
      | false =>
        cases hs2 : strLt b a with
        | true =>
          refine Or.inr (Or.inl (Or.inr ⟨h.symm, Or.inr ⟨?_, hs2⟩⟩))
          omega
        | false =>
          exact Or.inr (Or.inr ⟨h, Or.inr ⟨h1, strLt_conn hs hs2⟩⟩)
  · exact Or.inr (Or.inl (Or.inl h))

theorem tie_congr {a b c : String} (t : tie a b) : ord c a ↔ ord c b := by
  obtain ⟨e, inner⟩ := t
  rcases inner with ⟨h1, hv⟩ | ⟨h1, rfl⟩
  · constructor
    · rintro (h | ⟨hc, ⟨hcc, hvv⟩ | ⟨hcc, hss⟩⟩)
      · exact Or.inl (by omega)
      · exact Or.inr ⟨by omega, Or.inl ⟨hcc, by omega⟩⟩
      · exact absurd (hc.trans h1) hcc
    · rintro (h | ⟨hc, ⟨hcc, hvv⟩ | ⟨hcc, hss⟩⟩)
      · exact Or.inl (by omega)
      · exact Or.inr ⟨by omega, Or.inl ⟨hcc, by omega⟩⟩
      · rw [← e] at hc
        exact absurd (hc.trans h1) hcc
  · exact Iff.rfl

theorem ord_negtrans {a b c : String} (h1 : ¬ ord b a) (h2 : ¬ ord c b) :
    ¬ ord c a := by
  intro hca
  rcases ord_total a b with hab | hba | t
  · exact h2 (ord_trans hca hab)
  · exact h1 hba
  · exact h2 ((tie_congr t).mp hca)

theorem dirLess_asymm {a b : String} (h : dirLess a b = true) : dirLess b a = false := by
  unfold dirLess at h ⊢
  cases ha : extractNumber a with
  | some na =>
    cases hb : extractNumber b with
    | some nb =>
      rw [ha, hb] at h
      have h2 : decide (na < nb) = true := h
      have h3 : na < nb := of_decide_eq_true h2
      show decide (nb < na) = false
      exact decide_eq_false (by omega)
    | none =>
      rw [ha, hb] at h
      exact strLt_asymm h
  | none =>
    cases hb : extractNumber b with
    | some nb =>
      rw [ha, hb] at h
      exact strLt_asymm h
    | none =>
      rw [ha, hb] at h
      exact strLt_asymm h

theorem dirLess_iff_ord {a b : String} (ha : numOk a = true) (hb : numOk b = true) :
    dirLess a b = true ↔ ord a b := by
  by_cases hra : leadingDigitRun a = []
  case neg =>
    by_cases hrb : leadingDigitRun b = []
    case neg =>
      have hda : dirLess a b = decide (nval a < nval b) := by
        unfold dirLess
        rw [extractNumber_eq_some hra ha, extractNumber_eq_some hrb hb]
      obtain ⟨c, r, hcr, hc1, hc2⟩ := run_shape hra
      obtain ⟨d, t, hdt, hd1, hd2⟩ := run_shape hrb
      rw [hda, decide_eq_true_iff]
      unfold ord
      rw [hcls_digit hcr hc1 hc2, hcls_digit hdt hd1 hd2]
      simp
    case pos =>
      have hda : dirLess a b = strLt a b := by
        unfold dirLess
        rw [extractNumber_eq_some hra ha, extractNumber_none_of_run_nil hrb]
      obtain ⟨c, r, hcr, hc1, hc2⟩ := run_shape hra
      rw [hda]
      unfold ord
      rw [hcls_digit hcr hc1 hc2]
      rcases no_run_shape hrb with hnb | ⟨d, t, hdt, hdr⟩
      · rw [hcls_nil hnb, strLt_cons_nil hcr hnb]
        simp
      · rcases hdr with hlow | hhigh
        · rw [hcls_low hdt hlow, strLt_head_gt hcr hdt (by omega)]
          simp
        · rw [hcls_high hdt hhigh, strLt_head_lt hcr hdt (by omega)]
          simp
  case pos =>
    by_cases hrb : leadingDigitRun b = []
    case neg =>
      have hda : dirLess a b = strLt a b := by
        unfold dirLess
        rw [extractNumber_none_of_run_nil hra, extractNumber_eq_some hrb hb]
      obtain ⟨d, t, hdt, hd1, hd2⟩ := run_shape hrb
      rw [hda]
      unfold ord
      rw [hcls_digit hdt hd1 hd2]
      rcases no_run_shape hra with hna | ⟨c, r, hcr, hcr2⟩
      · rw [hcls_nil hna, strLt_nil_cons hna hdt]
        simp
      · rcases hcr2 with hlow | hhigh
        · rw [hcls_low hcr hlow, strLt_head_lt hcr hdt (by omega)]
          simp
        · rw [hcls_high hcr hhigh, strLt_head_gt hcr hdt (by omega)]
          simp
    case pos =>
      have hda : dirLess a b = strLt a b := by
        unfold dirLess
        rw [extractNumber_none_of_run_nil hra, extractNumber_none_of_run_nil hrb]
      rw [hda]
      unfold ord
      rcases no_run_shape hra with hna | ⟨c, r, hcr, hcr2⟩
      · rcases no_run_shape hrb with hnb | ⟨d, t, hdt, hdr2⟩
        · have hsf : strLt a b = false := by
            unfold strLt
            rw [hna, hnb]
            rfl
          rw [hsf, hcls_nil hna, hcls_nil hnb]
          simp
        · rcases hdr2 with hlow | hhigh
          · rw [hcls_nil hna, hcls_low hdt hlow, strLt_nil_cons hna hdt]
            simp
          · rw [hcls_nil hna, hcls_high hdt hhigh, strLt_nil_cons hna hdt]
            simp
      · rcases no_run_shape hrb with hnb | ⟨d, t, hdt, hdr2⟩
        · rcases hcr2 with hlow | hhigh
          · rw [hcls_low hcr hlow, hcls_nil hnb, strLt_cons_nil hcr hnb]
            simp
          · rw [hcls_high hcr hhigh, hcls_nil hnb, strLt_cons_nil hcr hnb]
            simp
        · rcases hcr2 with hlow | hhigh <;> rcases hdr2 with hlow2 | hhigh2
          · rw [hcls_low hcr hlow, hcls_low hdt hlow2]
            simp
          · rw [hcls_low hcr hlow, hcls_high hdt hhigh2, strLt_head_lt hcr hdt (by omega)]
            simp
          · rw [hcls_high hcr hhigh, hcls_low hdt hlow2, strLt_head_gt hcr hdt (by omega)]
            simp
          · rw [hcls_high hcr hhigh, hcls_high hdt hhigh2]
            simp

theorem dirLess_negtrans {a b c : String} (ha : numOk a = true) (hb : numOk b = true)
    (hc : numOk c = true) (h1 : dirLess b a = false) (h2 : dirLess c b = false) :
    dirLess c a = false := by
  have h1o : ¬ ord b a := fun o => by
    rw [(dirLess_iff_ord hb ha).mpr o] at h1
    exact absurd h1 (by simp)
  have h2o : ¬ ord c b := fun o => by
    rw [(dirLess_iff_ord hc hb).mpr o] at h2
    exact absurd h2 (by simp)
  cases hd : dirLess c a with
  | false => rfl
  | true => exact absurd ((dirLess_iff_ord hc ha).mp hd) (ord_negtrans h1o h2o)

end MigratePkg

namespace MigratePkg

/-! ### Sortedness of getDirFiles and claim C3 -/

theorem entLE_total (a b : DirEntry) : entLE a b = true ∨ entLE b a = true := by
  unfold entLE
  cases h : dirLess b.name a.name with
  | false => exact Or.inl rfl
  | true =>
    right
    rw [dirLess_asymm h]
    rfl

theorem entLE_trans {a b c : DirEntry} (ha : numOk a.name = true)
    (hb : numOk b.name = true) (hc : numOk c.name = true)
    (h1 : entLE a b = true) (h2 : entLE b c = true) : entLE a c = true := by
  unfold entLE at h1 h2 ⊢
  rw [Bool.not_eq_true'] at h1 h2 ⊢
  exact dirLess_negtrans ha hb hc h1 h2

theorem orderedInsert_pairwise : ∀ (a : DirEntry) (l : List DirEntry),
    numOk a.name = true → (∀ e ∈ l, numOk e.name = true) →
    l.Pairwise (fun x y => entLE x y = true) →
    (orderedInsert a l).Pairwise fun x y => entLE x y = true
  | a, [], _, _, _ => by simp [orderedInsert]
  | a, b :: t, hna, hnl, hp => by
    rcases hp with _ | ⟨hb, hpt⟩
    unfold orderedInsert
    by_cases h : entLE a b = true
    · rw [if_pos h]
      refine List.Pairwise.cons ?_ (List.Pairwise.cons hb hpt)
      intro y hy
      rcases List.mem_cons.mp hy with hyb | hyt
      · rw [hyb]
        exact h
      · exact entLE_trans hna (hnl b (List.mem_cons_self _ _))
          (hnl y (List.mem_cons_of_mem _ hyt)) h (hb y hyt)
    · rw [if_neg h]
      refine List.Pairwise.cons ?_
        (orderedInsert_pairwise a t hna
          (fun e he => hnl e (List.mem_cons_of_mem _ he)) hpt)
      intro y hy
      rcases List.mem_cons.mp ((orderedInsert_perm a t).mem_iff.mp hy) with hya | hyt
      · rw [hya]
        rcases entLE_total a b with h1 | h1
        · exact absurd h1 h
        · exact h1
      · exact hb y hyt

theorem sortEntries_pairwise (l : List DirEntry)
    (hnl : ∀ e ∈ l, numOk e.name = true) :
    (sortEntries l).Pairwise fun x y => entLE x y = true := by
  induction l with
  | nil => simp [sortEntries]
  | cons a t ih =>
    unfold sortEntries
    exact orderedInsert_pairwise a (sortEntries t) (hnl a (List.mem_cons_self _ _))
      (fun e he => hnl e (List.mem_cons_of_mem _ (mem_sortEntries.mp he)))
      (ih fun e he => hnl e (List.mem_cons_of_mem _ he))

def envC3 : Env :=
  ⟨fun d => if d = "m" then
      some [⟨"2.sql", false⟩, ⟨"10000000000000000000.sql", false⟩] else none,
    fun _ => none, id, fun _ => true, fun _ => .absent, true, 0⟩

/-- C3 counterexample: the name `10000000000000000000.sql` has a
leading digit run, so under the claim it has an ordering number equal
to 10^19 and must sort strictly after `2.sql` numerically; but its
digit run exceeds the 64-bit `int` range, `strconv.Atoi` fails, the
source falls back to a lexicographic comparison, and getDirFiles
returns it strictly before `2.sql` - the output is not ordered by the
claimed comparator (the element at position 1 is specLess-before the
element at position 0). -/
theorem C3_counterexample :
    getDirFiles envC3 "m" =
      some [⟨"10000000000000000000.sql", false⟩, ⟨"2.sql", false⟩] ∧
      specLess "2.sql" "10000000000000000000.sql" = true ∧
      specLess "10000000000000000000.sql" "2.sql" = false :=
  ⟨by decide, by decide, by decide⟩

/-- C3 amended: for every directory whose entry names each either lack
a leading digit run or have one whose value fits a signed 64-bit
integer, getDirFiles returns a permutation of the entries that is
ordered by the mixed comparator of the claim: numerically ascending
when both names have an ordering number, lexicographically ascending
on the full name otherwise.  (Names with an out-of-range digit run are
instead treated by the source as having no ordering number, which can
break the claimed order.) -/
theorem C3_amended (env : Env) (dir : String) (files : List DirEntry)
    (hread : env.readDir dir = some files)
    (hok : ∀ e ∈ files, numOk e.name = true) :
    getDirFiles env dir = some (sortEntries files) ∧
      (sortEntries files).Perm files ∧
      (sortEntries files).Pairwise fun x y => specLess y.name x.name = false := by
  refine ⟨by simp [getDirFiles, hread], sortEntries_perm files, ?_⟩
  have hok2 : ∀ e ∈ sortEntries files, numOk e.name = true :=
    fun e he => hok e (mem_sortEntries.mp he)
  have hp := sortEntries_pairwise files hok
  refine List.Pairwise.imp_of_mem ?_ hp
  intro x y hx hy hxy
  have hdl : dirLess y.name x.name = false := by
    rw [← Bool.not_eq_true']
    exact hxy
  rw [← dirLess_eq_specLess (hok2 y hy) (hok2 x hx)]
  exact hdl

def envC3w : Env :=
  ⟨fun d => if d = "m" then
      some [⟨"10-b.sql", false⟩, ⟨"2-c.sql", false⟩, ⟨"00-a.sql", false⟩,
        ⟨"zz.sql", false⟩] else none,
    fun _ => none, id, fun _ => true, fun _ => .absent, true, 0⟩

theorem C3_witness :
    getDirFiles envC3w "m" =
      some (sortEntries [⟨"10-b.sql", false⟩, ⟨"2-c.sql", false⟩, ⟨"00-a.sql", false⟩,
        ⟨"zz.sql", false⟩]) ∧
      (sortEntries [DirEntry.mk "10-b.sql" false, DirEntry.mk "2-c.sql" false,
        DirEntry.mk "00-a.sql" false, DirEntry.mk "zz.sql" false]).Perm
        [⟨"10-b.sql", false⟩, ⟨"2-c.sql", false⟩, ⟨"00-a.sql", false⟩,
          ⟨"zz.sql", false⟩] ∧
      (sortEntries [DirEntry.mk "10-b.sql" false, DirEntry.mk "2-c.sql" false,
        DirEntry.mk "00-a.sql" false, DirEntry.mk "zz.sql" false]).Pairwise
        fun x y => specLess y.name x.name = false :=
  C3_amended envC3w "m"
    [⟨"10-b.sql", false⟩, ⟨"2-c.sql", false⟩, ⟨"00-a.sql", false⟩, ⟨"zz.sql", false⟩]
    rfl (by decide)

end MigratePkg
